import Mathlib

/-!
Shallow embedding of the core numeric pipeline of `mixing-analysis.py`
(microfluidic-mixing repository): the interpolation primitive
`linear_interpolate`, the channel-edge trimming and position normalization
performed inside `process_images`, the triangular smoother `smooth`, and the
aggregation skeleton of `process_images` itself.

Modelling conventions:
* Python floats are modelled as rationals (`ℚ`); the numeric claims under
  study are structural (bracketing, lengths, min/max, error control flow),
  not about IEEE rounding.
* numpy arrays / Python lists are `List ℚ`.
* A Python exception (IndexError from running off the end of an array,
  ValueError from `min`/`max` of an empty sequence or from converting a
  non-singleton array with `float(...)`) is modelled as `Option.none`.
* numpy float division by zero does NOT raise in the source (it only emits a
  RuntimeWarning and yields non-finite values); accordingly division here is
  the total division of `ℚ` and never produces `none`.  The rational value of
  a division by zero (which is `0` in Lean) is a placeholder for numpy's
  nan/inf; no theorem below relies on that value.
* `process_images` is modelled from the point where the data files have
  already been parsed into (position, value) column pairs; the file-reading
  and format-sniffing glue carries no algorithmic content relevant to the
  claims.
-/

/-- Python builtin `min` over a sequence of floats: `ValueError` (`none`) on
an empty sequence, otherwise a left fold of binary `min`. -/
def pyMin (l : List ℚ) : Option ℚ :=
  match l with
  | [] => none
  | a :: as => some (as.foldl min a)

/-- Python builtin `max` over a sequence of floats: `ValueError` (`none`) on
an empty sequence, otherwise a left fold of binary `max`. -/
def pyMax (l : List ℚ) : Option ℚ :=
  match l with
  | [] => none
  | a :: as => some (as.foldl max a)

/-- Python builtin `max` over a sequence of ints (used for
`max(len_section)` in `process_images`). -/
def pyMaxNat (l : List Nat) : Option Nat :=
  match l with
  | [] => none
  | a :: as => some (as.foldl max a)

/-- Python `float(arr)` on a numpy array: succeeds exactly when the array has
a single element, otherwise raises (`none`). -/
def pyFloat (l : List ℚ) : Option ℚ :=
  match l with
  | [a] => some a
  | _ => none

/-- Python sequence indexing `l[i]` with Python's negative-index semantics:
a negative index `-k` addresses `l[len - k]` when `k ≤ len`; any index out of
that range raises IndexError (`none`). -/
def pyGet (l : List ℚ) (i : Int) : Option ℚ :=
  if 0 ≤ i then l.get? i.toNat
  else if i.natAbs ≤ l.length then l.get? (l.length - i.natAbs) else none

/-- The scan `index = 0; while x[index] <= x_desired: index += 1` of
`linear_interpolate`: returns the first index whose entry strictly exceeds
`x_desired`; if the scan runs off the end the access `x[len]` raises
IndexError (`none`). -/
def scanIdx (x_desired : ℚ) : List ℚ → Option Nat
  | [] => none
  | a :: as =>
    if x_desired < a then some 0
    else (scanIdx x_desired as).map (· + 1)

/-- `linear_interpolate(x, y, x_desired)` from `mixing-analysis.py`
(lines 200-224): scan for the first index whose position exceeds the target,
then form the convex combination of the bracketing pair.  Note that
`x[index-1]` at `index = 0` is Python's `x[-1]`, i.e. the LAST element. -/
def linear_interpolate (x y : List ℚ) (x_desired : ℚ) : Option ℚ :=
  match scanIdx x_desired x with
  | none => none
  | some index =>
    match pyGet x ((index : Int) - 1), pyGet x (index : Int),
          pyGet y ((index : Int) - 1), pyGet y (index : Int) with
    | some x_left, some x_right, some y_left, some y_right =>
        some ((y_left * (x_right - x_desired) + y_right * (x_desired - x_left))
              / (x_right - x_left))
    | _, _, _, _ => none

/-- One pass of zero-stripping from the front: numpy `trim_zeros`'s leading
phase. -/
def trimFront (l : List ℚ) : List ℚ :=
  l.dropWhile fun a => decide (a = 0)

/-- numpy `trim_zeros(arr)`: strip the leading and the trailing run of zeros. -/
def trim_zeros (l : List ℚ) : List ℚ :=
  (trimFront (trimFront l).reverse).reverse

/-- `min(value[:len(position)/2])` of `process_images` line 163: the minimum
intensity over the first half (Python 2 floor division of the POSITION
length). -/
def firstHalfMin (position value : List ℚ) : Option ℚ :=
  pyMin (value.take (position.length / 2))

/-- `min(value[len(position)/2:])` of `process_images` line 164: the minimum
intensity over the second half. -/
def secondHalfMin (position value : List ℚ) : Option ℚ :=
  pyMin (value.drop (position.length / 2))

/-- `position[value == m]`: numpy boolean-mask selection of the positions at
every index of the whole profile whose value equals `m`. -/
def maskSelect (position value : List ℚ) (m : ℚ) : List ℚ :=
  ((position.zip value).filter fun pv => decide (pv.2 = m)).map Prod.fst

/-- `float(position[value == m])` of `process_images` lines 163-164: converts
the mask selection to a scalar, raising unless exactly one index matched. -/
def detectEdge (position value : List ℚ) (m : ℚ) : Option ℚ :=
  pyFloat (maskSelect position value m)

/-- The masked zeroing of `process_images` lines 165-166: a sample whose
position lies outside `[startv, stopv]` has both coordinates set to zero. -/
def zeroOutside (startv stopv : ℚ) (pv : ℚ × ℚ) : ℚ × ℚ :=
  if pv.1 < startv ∨ stopv < pv.1 then ((0 : ℚ), (0 : ℚ)) else pv

/-- The channel-edge trimming of `process_images` lines 161-168: detect the
two edges as the positions of the per-half minimum intensities (failing
unless each mask selects exactly one sample), zero every sample outside the
edges, then strip the leading/trailing zero runs of both arrays. -/
def trimProfile (position value : List ℚ) : Option (List ℚ × List ℚ) := do
  let m1 ← firstHalfMin position value
  let startv ← detectEdge position value m1
  let m2 ← secondHalfMin position value
  let stopv ← detectEdge position value m2
  let pairs := (position.zip value).map (zeroOutside startv stopv)
  some (trim_zeros (pairs.map Prod.fst), trim_zeros (pairs.map Prod.snd))

/-- The normalization of `process_images` line 173:
`(position - min(position))/(max(position) - min(position))`.  `min`/`max` of
an empty array raise (`none`); the division itself never raises in numpy
(division by zero only warns), hence is total here. -/
def normalizePositions (position : List ℚ) : Option (List ℚ) := do
  let mn ← pyMin position
  let mx ← pyMax position
  some (position.map fun p => (p - mn) / (mx - mn))

/-- Insertion of one element into a sorted list (ascending). -/
def insertSorted (a : ℚ) : List ℚ → List ℚ
  | [] => [a]
  | b :: bs => if a ≤ b then a :: b :: bs else b :: insertSorted a bs

/-- Insertion sort, modelling the sort underlying numpy's `median`. -/
def sortQ (l : List ℚ) : List ℚ :=
  l.foldr insertSorted []

/-- numpy `median` of a 1-D array: middle element of the sorted data for odd
length, mean of the two middle elements for even length.  (For the empty
array numpy yields nan with a warning; the placeholder value here is `0`,
and no theorem relies on it.) -/
def medianQ (l : List ℚ) : ℚ :=
  let s := sortQ l
  if l.length % 2 = 1 then s.getD (l.length / 2) 0
  else (s.getD (l.length / 2 - 1) 0 + s.getD (l.length / 2) 0) / 2

/-- `median(ys, axis=0)` of `process_images` line 192: the per-lattice-point
median across the replicate rows. -/
def pyMedianCols (ys : List (List ℚ)) (np : Nat) : List ℚ :=
  (List.range np).map fun j => medianQ (ys.map fun row => row.getD j 0)

/-- The triangular weight vector of `smooth` line 240:
`array(range(degree) + [degree] + range(degree)[::-1]) + 1`,
i.e. `[1..degree] ++ [degree+1] ++ [degree..1]`. -/
def triangleWeights (degree : Nat) : List ℚ :=
  ((List.range degree).map fun k => ((k : ℚ) + 1))
    ++ [((degree : ℚ) + 1)]
    ++ ((List.range degree).reverse.map fun k => ((k : ℚ) + 1))

/-- `sum(data[i:i+len(triangle)]*triangle) / sum(triangle)`: the smoothed
value contributed by window start `i` in `smooth`'s loop. -/
def smoothedAt (data : List ℚ) (degree i : Nat) : ℚ :=
  (((data.drop i).take (2 * degree + 1)).zipWith (· * ·) (triangleWeights degree)).sum
    / (triangleWeights degree).sum

/-- `smooth(data, degree)` from `mixing-analysis.py` lines 227-248: compute
the interior triangular moving average for `i` in
`range(degree, len(data) - degree*2)`, prepend `degree + degree/2` copies of
the first interior value (`smoothed[0]` raises IndexError — `none` — when the
interior is empty), then pad with copies of the last value until the output
has the input's length. -/
def smooth (data : List ℚ) (degree : Nat) : Option (List ℚ) :=
  let interior := (List.range (data.length - 3 * degree)).map
    fun k => smoothedAt data degree (k + degree)
  match interior with
  | [] => none
  | s0 :: _ =>
    let pre := List.replicate (degree + degree / 2) s0 ++ interior
    some (pre ++ List.replicate (data.length - pre.length) (pre.getLastD 0))

/-- The trim-and-normalize preprocessing applied to one replicate inside
`process_images`'s first loop (lines 159-176): returns the normalized
coordinates paired with the trimmed values. -/
def prepOne (pv : List ℚ × List ℚ) : Option (List ℚ × List ℚ) := do
  let tp ← trimProfile pv.1 pv.2
  let nc ← normalizePositions tp.1
  some (nc, tp.2)

/-- The shared resampling lattice of `process_images` line 183:
`[n/float(num_points) for n in range(num_points)]`. -/
def lattice (np : Nat) : List ℚ :=
  (List.range np).map fun n => (n : ℚ) / (np : ℚ)

/-- `process_images(datalist, num_points, smoothing)` (lines 118-197),
modelled from the parsed (position, value) column pairs onward: trim and
normalize every replicate, derive `num_points` as the largest trimmed length
when unspecified (`max` of an empty list raises), resample every replicate on
the shared lattice with `linear_interpolate`, median-average across
replicates, optionally smooth with `degree = num_points/100`, and return
(lattice, averaged values, `num_points`). -/
def process_images (data : List (List ℚ × List ℚ)) (num_points : Option Nat)
    (smoothing : Bool) : Option (List ℚ × List ℚ × Nat) := do
  let prepped ← data.mapM prepOne
  let np ← match num_points with
    | some n => some n
    | none => pyMaxNat (prepped.map fun q => q.1.length)
  let x := lattice np
  let ys ← prepped.mapM fun q => x.mapM fun t => linear_interpolate q.1 q.2 t
  let avg := pyMedianCols ys np
  let avg2 ← if smoothing then smooth avg (np / 100) else some avg
  some (x, avg2, np)

/-! ### Basic lemmas about list access and ascending lists -/

theorem getD_eq_get {l : List ℚ} {n : Nat} (h : n < l.length) :
    l.getD n 0 = l.get ⟨n, h⟩ := by
  rw [List.getD_eq_getElem l 0 h, List.get_eq_getElem]

theorem get?_eq_some_getD {l : List ℚ} {n : Nat} (h : n < l.length) :
    l.get? n = some (l.getD n 0) := by
  rw [List.get?_eq_get h, getD_eq_get h]

theorem getD_mem {l : List ℚ} {n : Nat} (h : n < l.length) : l.getD n 0 ∈ l := by
  rw [getD_eq_get h]; exact List.get_mem l n h

theorem ascend_getD_lt {l : List ℚ} (h : List.Chain' (· < ·) l) {i j : Nat}
    (hij : i < j) (hj : j < l.length) : l.getD i 0 < l.getD j 0 := by
  have hp : List.Pairwise (· < ·) l := List.chain'_iff_pairwise.mp h
  have hi : i < l.length := lt_trans hij hj
  rw [getD_eq_get hi, getD_eq_get hj]
  exact List.pairwise_iff_get.mp hp ⟨i, hi⟩ ⟨j, hj⟩ hij

theorem ascend_le_getD_last {l : List ℚ} (h : List.Chain' (· < ·) l) {a : ℚ}
    (ha : a ∈ l) : a ≤ l.getD (l.length - 1) 0 := by
  obtain ⟨⟨n, hn⟩, rfl⟩ := List.mem_iff_get.mp ha
  rcases Nat.lt_or_ge n (l.length - 1) with hlt | hge
  · have hx := ascend_getD_lt h hlt (by omega)
    rw [getD_eq_get hn] at hx
    exact le_of_lt hx
  · have hne : n = l.length - 1 := by omega
    subst hne
    rw [getD_eq_get hn]

theorem ascend_getD_head_le {l : List ℚ} (h : List.Chain' (· < ·) l) {a : ℚ}
    (ha : a ∈ l) : l.getD 0 0 ≤ a := by
  obtain ⟨⟨n, hn⟩, rfl⟩ := List.mem_iff_get.mp ha
  rcases Nat.eq_zero_or_pos n with rfl | hpos
  · rw [getD_eq_get hn]
  · have hx := ascend_getD_lt h hpos hn
    rw [getD_eq_get hn] at hx
    exact le_of_lt hx

/-! ### Lemmas about the interpolation scan -/

theorem scanIdx_some_spec {t : ℚ} {l : List ℚ} {i : Nat}
    (h : scanIdx t l = some i) :
    i < l.length ∧ t < l.getD i 0 ∧ ∀ j, j < i → l.getD j 0 ≤ t := by
  induction l generalizing i with
  | nil => simp [scanIdx] at h
  | cons a as ih =>
    by_cases hta : t < a
    · simp only [scanIdx, if_pos hta, Option.some.injEq] at h
      subst h
      exact ⟨Nat.succ_pos _, by simpa using hta,
        fun j hj => absurd hj (Nat.not_lt_zero j)⟩
    · simp only [scanIdx, if_neg hta, Option.map_eq_some'] at h
      obtain ⟨i', hi', rfl⟩ := h
      obtain ⟨h1, h2, h3⟩ := ih hi'
      refine ⟨by simpa using Nat.succ_lt_succ h1, by simpa using h2, ?_⟩
      intro j hj
      cases j with
      | zero => simpa using le_of_not_lt hta
      | succ k => simpa using h3 k (by omega)

theorem scanIdx_isSome_of_exists {t : ℚ} {l : List ℚ}
    (h : ∃ a ∈ l, t < a) : (scanIdx t l).isSome := by
  induction l with
  | nil => simp at h
  | cons a as ih =>
    by_cases hta : t < a
    · simp [scanIdx, hta]
    · have hex : ∃ b ∈ as, t < b := by
        obtain ⟨b, hb, htb⟩ := h
        rcases List.mem_cons.mp hb with rfl | hmem
        · exact absurd htb hta
        · exact ⟨b, hmem, htb⟩
      rcases Option.isSome_iff_exists.mp (ih hex) with ⟨k, hk⟩
      simp [scanIdx, hta, hk]

theorem scanIdx_eq_some_of {t : ℚ} {l : List ℚ} {k : Nat} (hk : k < l.length)
    (hlt : t < l.getD k 0) (hle : ∀ j, j < k → l.getD j 0 ≤ t) :
    scanIdx t l = some k := by
  induction l generalizing k with
  | nil => simp at hk
  | cons a as ih =>
    cases k with
    | zero =>
      simp only [List.getD_cons_zero] at hlt
      simp [scanIdx, hlt]
    | succ n =>
      have hna : ¬ t < a := not_lt.mpr (by simpa using hle 0 (Nat.succ_pos n))
      simp only [List.getD_cons_succ] at hlt
      have hrec := ih (by simpa using hk) hlt
        (fun j hj => by simpa using hle (j+1) (by omega))
      simp [scanIdx, hna, hrec]

theorem scanIdx_eq_none {t : ℚ} {l : List ℚ} (h : ∀ a ∈ l, a ≤ t) :
    scanIdx t l = none := by
  induction l with
  | nil => rfl
  | cons a as ih =>
    have hna : ¬ t < a := not_lt.mpr (h a (List.mem_cons_self a as))
    simp [scanIdx, hna, ih (fun b hb => h b (List.mem_cons_of_mem a hb))]

/-! ### Lemmas about Python indexing -/

theorem pyGet_nat {l : List ℚ} {n : Nat} (h : n < l.length) :
    pyGet l (n : Int) = some (l.getD n 0) := by
  have h0 : (0 : Int) ≤ (n : Int) := Int.ofNat_nonneg n
  unfold pyGet
  rw [if_pos h0, Int.toNat_ofNat, get?_eq_some_getD h]

theorem pyGet_nat_pred {l : List ℚ} {n : Nat} (h0 : 0 < n) (h : n - 1 < l.length) :
    pyGet l ((n : Int) - 1) = some (l.getD (n - 1) 0) := by
  have heq : (n : Int) - 1 = ((n - 1 : Nat) : Int) := by omega
  rw [heq, pyGet_nat h]

theorem pyGet_neg_one {l : List ℚ} (h : l ≠ []) :
    pyGet l (-1) = some (l.getD (l.length - 1) 0) := by
  have hlen : 1 ≤ l.length := List.length_pos.mpr h
  have h1 : ¬ (0 : Int) ≤ -1 := by omega
  have h2 : ((-1 : Int)).natAbs = 1 := rfl
  unfold pyGet
  rw [if_neg h1, h2, if_pos hlen, get?_eq_some_getD (by omega)]

theorem linear_interpolate_eq_of_scan {x y : List ℚ} {t : ℚ} {i : Nat}
    (hscan : scanIdx t x = some i) (h0 : 0 < i) (hy : i < y.length) :
    linear_interpolate x y t =
      some ((y.getD (i-1) 0 * (x.getD i 0 - t) + y.getD i 0 * (t - x.getD (i-1) 0))
            / (x.getD i 0 - x.getD (i-1) 0)) := by
  have hx : i < x.length := (scanIdx_some_spec hscan).1
  unfold linear_interpolate
  rw [hscan]
  show (match pyGet x ((i : Int) - 1), pyGet x (i : Int),
          pyGet y ((i : Int) - 1), pyGet y (i : Int) with
    | some x_left, some x_right, some y_left, some y_right =>
        some ((y_left * (x_right - t) + y_right * (t - x_left))
              / (x_right - x_left))
    | _, _, _, _ => none) = _
  rw [pyGet_nat_pred h0 (by omega), pyGet_nat hx,
      pyGet_nat_pred h0 (by omega), pyGet_nat hy]

/-! ### Claim theorems about the interpolator -/

/-- C1: for a profile with strictly ascending positions and a target strictly
within the position range, `linear_interpolate` returns
`(y[i-1]*(x[i]-x*) + y[i]*(x*-x[i-1])) / (x[i]-x[i-1])`, where `i` is the
first index whose position exceeds `x*`. -/
theorem interp_strictly_within (x y : List ℚ) (t : ℚ)
    (hasc : List.Chain' (· < ·) x)
    (hlen : y.length = x.length)
    (hlo : x.getD 0 0 < t) (hhi : t < x.getD (x.length - 1) 0) :
    ∃ i, 0 < i ∧ i < x.length ∧ (∀ j, j < i → x.getD j 0 ≤ t) ∧ t < x.getD i 0 ∧
      linear_interpolate x y t =
        some ((y.getD (i-1) 0 * (x.getD i 0 - t) + y.getD i 0 * (t - x.getD (i-1) 0))
              / (x.getD i 0 - x.getD (i-1) 0)) := by
  have hne : x ≠ [] := by
    intro hx
    subst hx
    simp only [List.getD_nil] at hlo hhi
    exact lt_asymm hlo hhi
  have hlenx : 0 < x.length := List.length_pos.mpr hne
  have hmem : x.getD (x.length - 1) 0 ∈ x := getD_mem (by omega)
  have hsome := scanIdx_isSome_of_exists ⟨_, hmem, hhi⟩
  obtain ⟨i, hscan⟩ := Option.isSome_iff_exists.mp hsome
  obtain ⟨h1, h2, h3⟩ := scanIdx_some_spec hscan
  have hi0 : 0 < i := by
    rcases Nat.eq_zero_or_pos i with rfl | h
    · exact absurd h2 (not_lt.mpr (le_of_lt hlo))
    · exact h
  have hy : i < y.length := by omega
  exact ⟨i, hi0, h1, h3, h2, linear_interpolate_eq_of_scan hscan hi0 hy⟩

/-- C1 witness: the profile `x = [0,1,2]`, `y = [10,20,30]` at target `1/2`. -/
theorem interp_strictly_within_witness :
    ∃ i, 0 < i ∧ i < ([(0:ℚ), 1, 2]).length ∧
      (∀ j, j < i → ([(0:ℚ), 1, 2]).getD j 0 ≤ (1/2 : ℚ)) ∧
      (1/2 : ℚ) < ([(0:ℚ), 1, 2]).getD i 0 ∧
      linear_interpolate [0, 1, 2] [10, 20, 30] (1/2) =
        some ((([(10:ℚ), 20, 30]).getD (i-1) 0 * (([(0:ℚ), 1, 2]).getD i 0 - 1/2)
               + ([(10:ℚ), 20, 30]).getD i 0 * (1/2 - ([(0:ℚ), 1, 2]).getD (i-1) 0))
              / (([(0:ℚ), 1, 2]).getD i 0 - ([(0:ℚ), 1, 2]).getD (i-1) 0)) :=
  interp_strictly_within [0, 1, 2] [10, 20, 30] (1/2)
    (by norm_num [List.chain'_cons]) rfl (by norm_num) (by norm_num)

/-- C2: at a target exactly equal to `position[i]` for `0 < i < length - 1`,
the scan places the target in the bracket ending at the next higher index
`i+1`, and the returned value equals the bracket-`(i-1, i)` interpolation
formula evaluated at `position[i]`; both bracket formulas coincide there,
with value `y[i]`. -/
theorem interp_at_gridpoint (x y : List ℚ) (i : Nat)
    (hasc : List.Chain' (· < ·) x) (hlen : y.length = x.length)
    (h0 : 0 < i) (hi : i + 1 < x.length) :
    scanIdx (x.getD i 0) x = some (i + 1) ∧
    linear_interpolate x y (x.getD i 0) =
      some ((y.getD (i-1) 0 * (x.getD i 0 - x.getD i 0)
             + y.getD i 0 * (x.getD i 0 - x.getD (i-1) 0))
            / (x.getD i 0 - x.getD (i-1) 0)) ∧
    linear_interpolate x y (x.getD i 0) = some (y.getD i 0) := by
  have hscan : scanIdx (x.getD i 0) x = some (i + 1) := by
    apply scanIdx_eq_some_of hi (ascend_getD_lt hasc (Nat.lt_succ_self i) hi)
    intro j hj
    rcases Nat.lt_or_ge j i with hji | hji
    · exact le_of_lt (ascend_getD_lt hasc hji (by omega))
    · have : j = i := by omega
      subst this
      exact le_refl _
  have hval := @linear_interpolate_eq_of_scan x y (x.getD i 0) (i + 1) hscan
    (Nat.succ_pos i) (by omega)
  simp only [Nat.add_sub_cancel] at hval
  have hlast : linear_interpolate x y (x.getD i 0) = some (y.getD i 0) := by
    rw [hval]
    have hne : x.getD (i+1) 0 - x.getD i 0 ≠ 0 :=
      sub_ne_zero.mpr (ne_of_gt (ascend_getD_lt hasc (Nat.lt_succ_self i) hi))
    rw [sub_self, mul_zero, add_zero, mul_div_assoc, div_self hne, mul_one]
  refine ⟨hscan, ?_, hlast⟩
  rw [hlast]
  have hne' : x.getD i 0 - x.getD (i-1) 0 ≠ 0 :=
    sub_ne_zero.mpr (ne_of_gt (ascend_getD_lt hasc (by omega) (by omega)))
  rw [sub_self, mul_zero, zero_add, mul_div_assoc, div_self hne', mul_one]

/-- C2 witness: the profile `x = [0,1,2,3]`, `y = [5,6,7,8]` at grid index 1. -/
theorem interp_at_gridpoint_witness :
    scanIdx (([(0:ℚ), 1, 2, 3]).getD 1 0) [(0:ℚ), 1, 2, 3] = some 2 ∧
    linear_interpolate [(0:ℚ), 1, 2, 3] [5, 6, 7, 8] (([(0:ℚ), 1, 2, 3]).getD 1 0) =
      some ((([(5:ℚ), 6, 7, 8]).getD 0 0
              * (([(0:ℚ), 1, 2, 3]).getD 1 0 - ([(0:ℚ), 1, 2, 3]).getD 1 0)
             + ([(5:ℚ), 6, 7, 8]).getD 1 0
              * (([(0:ℚ), 1, 2, 3]).getD 1 0 - ([(0:ℚ), 1, 2, 3]).getD 0 0))
            / (([(0:ℚ), 1, 2, 3]).getD 1 0 - ([(0:ℚ), 1, 2, 3]).getD 0 0)) ∧
    linear_interpolate [(0:ℚ), 1, 2, 3] [5, 6, 7, 8] (([(0:ℚ), 1, 2, 3]).getD 1 0) =
      some (([(5:ℚ), 6, 7, 8]).getD 1 0) :=
  interp_at_gridpoint [0, 1, 2, 3] [5, 6, 7, 8] 1
    (by norm_num [List.chain'_cons]) rfl (by norm_num) (by norm_num)

/-- C6 counterexample: the claim asserts that a target outside the strict
position range never silently yields a value, but a target below the minimum
position returns a value silently: the scan stops at index 0 and `x[index-1]`
is Python's wrap-around access to the LAST element. -/
theorem interp_below_range_silent_cex :
    (linear_interpolate [(0:ℚ), 1, 2] [10, 20, 30] (-1)).isSome = true := by
  norm_num [linear_interpolate, scanIdx, pyGet]

/-- C6 (amended): out-of-range behaviour of `linear_interpolate` on a profile
with strictly ascending positions: a target at or above the maximum position
makes the scan run off the end (index-bounds error, `none`); a target
strictly below the minimum silently returns a value computed from the
wrap-around bracket (last, first); a target equal to the minimum (with at
least two points) silently returns a value via the tie-break as well. -/
theorem interp_out_of_range (x y : List ℚ)
    (hasc : List.Chain' (· < ·) x) (hlen : y.length = x.length) (hne : x ≠ []) :
    (∀ t, x.getD (x.length - 1) 0 ≤ t → linear_interpolate x y t = none) ∧
    (∀ t, t < x.getD 0 0 → (linear_interpolate x y t).isSome) ∧
    (2 ≤ x.length → (linear_interpolate x y (x.getD 0 0)).isSome) := by
  have hlenx : 0 < x.length := List.length_pos.mpr hne
  have hley : y ≠ [] := by
    intro hy
    subst hy
    simp at hlen
    omega
  refine ⟨?_, ?_, ?_⟩
  · intro t ht
    have hnone : scanIdx t x = none :=
      scanIdx_eq_none (fun a ha => le_trans (ascend_le_getD_last hasc ha) ht)
    unfold linear_interpolate
    rw [hnone]
  · intro t ht
    have hscan : scanIdx t x = some 0 := by
      obtain ⟨a, as, rfl⟩ := List.exists_cons_of_ne_nil hne
      simp only [List.getD_cons_zero] at ht
      simp [scanIdx, ht]
    unfold linear_interpolate
    rw [hscan]
    show (match pyGet x (((0:Nat) : Int) - 1), pyGet x ((0:Nat) : Int),
            pyGet y (((0:Nat) : Int) - 1), pyGet y ((0:Nat) : Int) with
      | some x_left, some x_right, some y_left, some y_right =>
          some ((y_left * (x_right - t) + y_right * (t - x_left))
                / (x_right - x_left))
      | _, _, _, _ => none).isSome
    have e : (((0:Nat) : Int) - 1) = -1 := by norm_num
    rw [e, pyGet_neg_one hne, pyGet_nat hlenx, pyGet_neg_one hley,
        pyGet_nat (by omega)]
    rfl
  · intro h2
    have hscan : scanIdx (x.getD 0 0) x = some 1 := by
      apply scanIdx_eq_some_of (by omega) (ascend_getD_lt hasc Nat.zero_lt_one (by omega))
      intro j hj
      have : j = 0 := by omega
      subst this
      exact le_refl _
    rw [linear_interpolate_eq_of_scan hscan Nat.one_pos (by omega)]
    rfl

/-- C6 witness: the behaviour of the three out-of-range regimes on the
profile `x = [0,1,2]`, `y = [10,20,30]`. -/
theorem interp_out_of_range_witness :
    linear_interpolate [(0:ℚ), 1, 2] [10, 20, 30] 5 = none ∧
    (linear_interpolate [(0:ℚ), 1, 2] [10, 20, 30] (-2)).isSome = true ∧
    (linear_interpolate [(0:ℚ), 1, 2] [10, 20, 30] (([(0:ℚ), 1, 2]).getD 0 0)).isSome = true := by
  have h := interp_out_of_range [0, 1, 2] [10, 20, 30]
    (by norm_num [List.chain'_cons]) rfl (by simp)
  exact ⟨h.1 5 (by norm_num), h.2.1 (-2) (by norm_num), h.2.2 (by norm_num)⟩

/-! ### Lemmas about pyMin, pyMax, pyFloat and mask selection -/

theorem pyMin_eq_min? (l : List ℚ) : pyMin l = l.min? := by
  cases l <;> rfl

theorem pyMax_eq_max? (l : List ℚ) : pyMax l = l.max? := by
  cases l <;> rfl

theorem pyMin_eq_some_iff {l : List ℚ} {m : ℚ} :
    pyMin l = some m ↔ m ∈ l ∧ ∀ b ∈ l, m ≤ b := by
  rw [pyMin_eq_min?]
  exact @List.min?_eq_some_iff ℚ m _ _ ⟨fun h1 h2 => le_antisymm h1 h2⟩
    (fun a => le_refl a) min_choice (fun a b c => le_min_iff) l

theorem pyMax_eq_some_iff {l : List ℚ} {m : ℚ} :
    pyMax l = some m ↔ m ∈ l ∧ ∀ b ∈ l, b ≤ m := by
  rw [pyMax_eq_max?]
  exact @List.max?_eq_some_iff ℚ m _ _ ⟨fun h1 h2 => le_antisymm h1 h2⟩
    (fun a => le_refl a) max_choice (fun a b c => max_le_iff) l

theorem pyMin_cons_isSome (a : ℚ) (as : List ℚ) : (pyMin (a :: as)).isSome := rfl

theorem pyMax_cons_isSome (a : ℚ) (as : List ℚ) : (pyMax (a :: as)).isSome := rfl

theorem pyFloat_isSome_iff {l : List ℚ} : (pyFloat l).isSome ↔ l.length = 1 := by
  match l with
  | [] => simp [pyFloat]
  | [a] => simp [pyFloat]
  | a :: b :: bs => simp [pyFloat]

theorem countP_zip_snd (position value : List ℚ) (m : ℚ)
    (hlen : position.length = value.length) :
    ((position.zip value).countP fun pv => decide (pv.2 = m)) = value.count m := by
  induction position generalizing value with
  | nil =>
    cases value with
    | nil => simp
    | cons b bs => simp at hlen
  | cons a as ih =>
    cases value with
    | nil => simp at hlen
    | cons b bs =>
      have h : as.length = bs.length := by simpa using hlen
      simp [List.zip_cons_cons, List.countP_cons, List.count_cons, ih bs h]

theorem maskSelect_length {position value : List ℚ} (m : ℚ)
    (hlen : position.length = value.length) :
    (maskSelect position value m).length = value.count m := by
  unfold maskSelect
  rw [List.length_map, ← List.countP_eq_length_filter, countP_zip_snd position value m hlen]

/-! ### Claim theorems about normalization -/

/-- C4: normalization maps each position `p` to
`(p - min(positions)) / (max(positions) - min(positions))`, and for a
non-degenerate profile (two distinct positions exist) the normalized
positions have minimum exactly 0 and maximum exactly 1. -/
theorem normalize_min_max (position : List ℚ) (p q : ℚ)
    (hp : p ∈ position) (hq : q ∈ position) (hpq : p ≠ q) :
    ∃ mn mx, pyMin position = some mn ∧ pyMax position = some mx ∧
      normalizePositions position =
        some (position.map fun r => (r - mn) / (mx - mn)) ∧
      pyMin (position.map fun r => (r - mn) / (mx - mn)) = some 0 ∧
      pyMax (position.map fun r => (r - mn) / (mx - mn)) = some 1 := by
  have hne : position ≠ [] := List.ne_nil_of_mem hp
  obtain ⟨a, as, rfl⟩ := List.exists_cons_of_ne_nil hne
  obtain ⟨mn, hmn⟩ := Option.isSome_iff_exists.mp (pyMin_cons_isSome a as)
  obtain ⟨mx, hmx⟩ := Option.isSome_iff_exists.mp (pyMax_cons_isSome a as)
  obtain ⟨hmn_mem, hmn_le⟩ := pyMin_eq_some_iff.mp hmn
  obtain ⟨hmx_mem, hmx_ge⟩ := pyMax_eq_some_iff.mp hmx
  have hlt : mn < mx := by
    rcases lt_or_gt_of_ne hpq with h | h
    · exact lt_of_le_of_lt (hmn_le p hp) (lt_of_lt_of_le h (hmx_ge q hq))
    · exact lt_of_le_of_lt (hmn_le q hq) (lt_of_lt_of_le h (hmx_ge p hp))
  have hd : (0 : ℚ) < mx - mn := by linarith
  have hdne : mx - mn ≠ 0 := ne_of_gt hd
  refine ⟨mn, mx, hmn, hmx, ?_, ?_, ?_⟩
  · unfold normalizePositions
    rw [hmn, hmx]
    rfl
  · apply pyMin_eq_some_iff.mpr
    constructor
    · have : (mn - mn) / (mx - mn) = 0 := by rw [sub_self, zero_div]
      exact this ▸ List.mem_map_of_mem _ hmn_mem
    · intro b hb
      obtain ⟨r, hr, rfl⟩ := List.mem_map.mp hb
      exact div_nonneg (by linarith [hmn_le r hr]) (le_of_lt hd)
  · apply pyMax_eq_some_iff.mpr
    constructor
    · have : (mx - mn) / (mx - mn) = 1 := div_self hdne
      exact this ▸ List.mem_map_of_mem _ hmx_mem
    · intro b hb
      obtain ⟨r, hr, rfl⟩ := List.mem_map.mp hb
      rw [div_le_one hd]
      linarith [hmx_ge r hr]

/-- C4 witness: the trimmed profile `[2, 3, 4, 5]`. -/
theorem normalize_min_max_witness :
    ∃ mn mx, pyMin [(2:ℚ), 3, 4, 5] = some mn ∧ pyMax [(2:ℚ), 3, 4, 5] = some mx ∧
      normalizePositions [(2:ℚ), 3, 4, 5] =
        some (([(2:ℚ), 3, 4, 5]).map fun r => (r - mn) / (mx - mn)) ∧
      pyMin (([(2:ℚ), 3, 4, 5]).map fun r => (r - mn) / (mx - mn)) = some 0 ∧
      pyMax (([(2:ℚ), 3, 4, 5]).map fun r => (r - mn) / (mx - mn)) = some 1 :=
  normalize_min_max [2, 3, 4, 5] 2 3 (by simp) (by simp) (by norm_num)

/-- C7 counterexample: normalizing the zero-width profile `[5, 5]`
(maximum position equals minimum position) does NOT fail: numpy's division
by zero only emits a RuntimeWarning, so a (degenerate) profile is returned
to the caller rather than an error being raised. -/
theorem normalize_degenerate_returns_cex :
    (normalizePositions [(5:ℚ), 5]).isSome = true := rfl

/-- C7 (amended): normalization of any non-empty trimmed profile returns a
profile; in particular the zero-width case does not fail — the division by
zero is silent (warning only), and the only failing input is an empty
profile (where Python's `min`/`max` raise). -/
theorem normalize_nonempty_isSome (position : List ℚ) (h : position ≠ []) :
    (normalizePositions position).isSome = true := by
  obtain ⟨a, as, rfl⟩ := List.exists_cons_of_ne_nil h
  rfl

/-- C7 amended-claim witness: the profile `[1, 2]`. -/
theorem normalize_nonempty_isSome_witness :
    (normalizePositions [(1:ℚ), 2]).isSome = true :=
  normalize_nonempty_isSome [1, 2] (by simp)

/-- C10: edge detection succeeds only when the half-minimum intensity occurs
at exactly one index of the ENTIRE value array: for the minimum `m` of either
half, the conversion `float(position[value == m])` succeeds iff the count of
`m` in the whole value array is exactly one; whenever the minimum recurs at
any other index, the conversion fails. -/
theorem edge_detection_unique_min (position value : List ℚ) (m1 m2 : ℚ)
    (hlen : position.length = value.length)
    (h1 : firstHalfMin position value = some m1)
    (h2 : secondHalfMin position value = some m2) :
    ((detectEdge position value m1).isSome ↔ value.count m1 = 1) ∧
    ((detectEdge position value m2).isSome ↔ value.count m2 = 1) := by
  constructor
  · unfold detectEdge
    rw [pyFloat_isSome_iff, maskSelect_length m1 hlen]
  · unfold detectEdge
    rw [pyFloat_isSome_iff, maskSelect_length m2 hlen]

/-- C10 witness: the profile `position = [1,2,3,4]`, `value = [9,2,8,3]`,
whose half minima `2` and `3` each occur exactly once. -/
theorem edge_detection_unique_min_witness :
    ((detectEdge [(1:ℚ), 2, 3, 4] [9, 2, 8, 3] 2).isSome ↔
      ([(9:ℚ), 2, 8, 3]).count 2 = 1) ∧
    ((detectEdge [(1:ℚ), 2, 3, 4] [9, 2, 8, 3] 3).isSome ↔
      ([(9:ℚ), 2, 8, 3]).count 3 = 1) :=
  edge_detection_unique_min [1, 2, 3, 4] [9, 2, 8, 3] 2 3 rfl
    (by norm_num [firstHalfMin, pyMin])
    (by norm_num [secondHalfMin, pyMin])

/-! ### Lemmas for the smoother -/

theorem getD_replicate {a : ℚ} {n j : Nat} (h : j < n) :
    (List.replicate n a).getD j 0 = a := by
  induction n generalizing j with
  | zero => omega
  | succ m ih =>
    cases j with
    | zero => simp [List.replicate_succ]
    | succ k =>
      simp only [List.replicate_succ, List.getD_cons_succ]
      exact ih (by omega)

theorem getD_range_map {f : Nat → ℚ} {n k : Nat} (h : k < n) :
    ((List.range n).map f).getD k 0 = f k := by
  have hk : k < ((List.range n).map f).length := by simp [h]
  rw [List.getD_eq_getElem _ _ hk, List.getElem_map]
  congr 1
  exact List.getElem_range k _

theorem getLastD_eq_getD (l : List ℚ) : l.getLastD 0 = l.getD (l.length - 1) 0 := by
  rw [List.getLastD_eq_getLast?, List.getLast?_eq_get?, List.getD_eq_getElem?_getD,
    List.get?_eq_getElem?]

/-- C8 counterexample: `smooth([1], 1)` does not return a sequence at all:
the interior loop range is empty and `smoothed[0]` raises IndexError, so the
claim does not hold for every data sequence and degree. -/
theorem smooth_short_input_cex : smooth [(1:ℚ)] 1 = none := rfl

theorem smooth_eq_of_interior {data : List ℚ} {degree : Nat} {s0 : ℚ}
    {rest : List ℚ}
    (hint : (List.range (data.length - 3 * degree)).map
        (fun k => smoothedAt data degree (k + degree)) = s0 :: rest) :
    smooth data degree =
      some ((List.replicate (degree + degree / 2) s0 ++ (s0 :: rest)) ++
        List.replicate
          (data.length - (List.replicate (degree + degree / 2) s0 ++ (s0 :: rest)).length)
          ((List.replicate (degree + degree / 2) s0 ++ (s0 :: rest)).getLastD 0)) := by
  unfold smooth
  rw [hint]

/-- C8 (amended): whenever the data is long enough for the interior loop to
be non-empty (`len(data) > 3*degree`), `smooth` returns a sequence of the
input's length whose first `degree + degree/2` points equal the first
computed smoothed value and whose tail beyond the interior is padded with
copies of the last computed smoothed value; for shorter data `smooth` raises
instead (see the counterexample). -/
theorem smooth_spec (data : List ℚ) (degree : Nat)
    (h : 3 * degree < data.length) :
    ∃ out, smooth data degree = some out ∧
      out.length = data.length ∧
      (∀ j, j < degree + degree / 2 →
        out.getD j 0 = smoothedAt data degree degree) ∧
      (∀ j, degree + degree / 2 + (data.length - 3 * degree) ≤ j →
        j < data.length →
        out.getD j 0 = smoothedAt data degree (data.length - 2 * degree - 1)) := by
  obtain ⟨m, hm⟩ : ∃ m, data.length - 3 * degree = m + 1 :=
    ⟨data.length - 3 * degree - 1, by omega⟩
  have hint : (List.range (data.length - 3 * degree)).map
      (fun k => smoothedAt data degree (k + degree))
      = smoothedAt data degree (0 + degree)
        :: (List.range m).map (fun k => smoothedAt data degree (Nat.succ k + degree)) := by
    rw [hm, List.range_succ_eq_map, List.map_cons, List.map_map]
    rfl
  have hsmooth := smooth_eq_of_interior hint
  set s0 := smoothedAt data degree (0 + degree) with hs0
  set rest := (List.range m).map
    (fun k => smoothedAt data degree (Nat.succ k + degree)) with hrest
  set pre := List.replicate (degree + degree / 2) s0 ++ (s0 :: rest) with hpre
  have hs0d : s0 = smoothedAt data degree degree := by
    rw [hs0, Nat.zero_add]
  have hrestlen : rest.length = m := by
    rw [hrest, List.length_map, List.length_range]
  have hprelen : pre.length = degree + degree / 2 + (m + 1) := by
    rw [hpre, List.length_append, List.length_replicate]
    simp [hrestlen]
  have hpreL : pre.length ≤ data.length := by omega
  have hmid : pre.getD (degree + degree / 2 + m) 0
      = smoothedAt data degree (m + degree) := by
    rw [hpre, List.getD_append_right _ _ _ _ (by simp), List.length_replicate]
    have hidx : degree + degree / 2 + m - (degree + degree / 2) = m := by omega
    rw [hidx]
    cases m with
    | zero =>
      rw [List.getD_cons_zero, hs0]
    | succ k =>
      rw [List.getD_cons_succ, hrest, getD_range_map (by omega)]
  have hlast : pre.getLastD 0 = smoothedAt data degree (data.length - 2 * degree - 1) := by
    rw [getLastD_eq_getD, hprelen]
    have hidx : degree + degree / 2 + (m + 1) - 1 = degree + degree / 2 + m := by omega
    rw [hidx, hmid]
    congr 1
    omega
  refine ⟨_, hsmooth, ?_, ?_, ?_⟩
  · rw [List.length_append, List.length_replicate]
    omega
  · intro j hj
    rw [List.getD_append _ _ _ j (by omega), hpre,
      List.getD_append _ _ _ j (by simpa using hj), getD_replicate hj, hs0d]
  · intro j hj1 hj2
    have hjpre : pre.length ≤ j := by omega
    rw [List.getD_append_right _ _ _ j hjpre, getD_replicate (by omega), hlast]

/-- C8 witness: `smooth` on an 8-point data sequence with degree 1. -/
theorem smooth_spec_witness :
    ∃ out, smooth [(1:ℚ), 2, 3, 4, 5, 6, 7, 8] 1 = some out ∧
      out.length = ([(1:ℚ), 2, 3, 4, 5, 6, 7, 8]).length ∧
      (∀ j, j < 1 + 1 / 2 →
        out.getD j 0 = smoothedAt [(1:ℚ), 2, 3, 4, 5, 6, 7, 8] 1 1) ∧
      (∀ j, 1 + 1 / 2 + (([(1:ℚ), 2, 3, 4, 5, 6, 7, 8]).length - 3 * 1) ≤ j →
        j < ([(1:ℚ), 2, 3, 4, 5, 6, 7, 8]).length →
        out.getD j 0 =
          smoothedAt [(1:ℚ), 2, 3, 4, 5, 6, 7, 8] 1
            (([(1:ℚ), 2, 3, 4, 5, 6, 7, 8]).length - 2 * 1 - 1)) :=
  smooth_spec [1, 2, 3, 4, 5, 6, 7, 8] 1 (by norm_num)

/-! ### Claim theorems about the aggregation skeleton -/

/-- C5: when `process_images` is called with `num_points` unspecified and
succeeds, the `num_points` it returns as third output is the maximum trimmed
replicate length of the group, and the first output (the lattice on which it
resampled every replicate) is exactly the `num_points` values `n/num_points`
for `n` in `[0, num_points)`. -/
theorem process_images_default_lattice
    (data : List (List ℚ × List ℚ)) (smoothing : Bool)
    (x avg : List ℚ) (np : Nat)
    (h : process_images data none smoothing = some (x, avg, np)) :
    ∃ prepped, data.mapM prepOne = some prepped ∧
      pyMaxNat (prepped.map fun q => q.1.length) = some np ∧
      x = lattice np := by
  unfold process_images at h
  cases hprep : data.mapM prepOne with
  | none => rw [hprep] at h; simp at h
  | some prepped =>
    rw [hprep] at h
    simp only [Option.bind_eq_bind, Option.some_bind] at h
    cases hnp : pyMaxNat (prepped.map fun q => q.1.length) with
    | none => rw [hnp] at h; simp at h
    | some np' =>
      rw [hnp] at h
      simp only [Option.bind_eq_bind, Option.some_bind] at h
      cases hys : prepped.mapM (fun q => (lattice np').mapM
          fun t => linear_interpolate q.1 q.2 t) with
      | none => rw [hys] at h; simp at h
      | some ys =>
        rw [hys] at h
        simp only [Option.bind_eq_bind, Option.some_bind] at h
        cases smoothing with
        | false =>
          simp only [Bool.false_eq_true, if_false, Option.some.injEq,
            Prod.mk.injEq] at h
          obtain ⟨hx, _, hnp2⟩ := h
          subst hnp2
          exact ⟨prepped, rfl, hnp, hx.symm⟩
        | true =>
          simp only [if_true] at h
          cases hsm : smooth (pyMedianCols ys np') (np' / 100) with
          | none => rw [hsm] at h; simp at h
          | some sm =>
            rw [hsm] at h
            simp only [Option.bind_eq_bind, Option.some_bind, Option.some.injEq,
              Prod.mk.injEq] at h
            obtain ⟨hx, _, hnp2⟩ := h
            subst hnp2
            exact ⟨prepped, rfl, hnp, hx.symm⟩

/-- C5 witness: a single 4-sample replicate whose trimmed length is 2. -/
theorem process_images_default_lattice_witness :
    ∃ prepped, ([([(1:ℚ), 2, 3, 4], [5, 2, 3, 9])]).mapM prepOne = some prepped ∧
      pyMaxNat (prepped.map fun q => q.1.length) = some 2 ∧
      [(0:ℚ), 1/2] = lattice 2 := by
  apply process_images_default_lattice [([1, 2, 3, 4], [5, 2, 3, 9])] false
    [0, 1/2] [2, 5/2] 2
  have h1 : trimProfile [(1:ℚ), 2, 3, 4] [5, 2, 3, 9] = some ([2, 3], [2, 3]) := by
    norm_num [trimProfile, firstHalfMin, secondHalfMin, detectEdge, pyMin,
      pyFloat, maskSelect, zeroOutside, trim_zeros, trimFront]
  have h2 : prepOne ([(1:ℚ), 2, 3, 4], [5, 2, 3, 9]) = some ([0, 1], [2, 3]) := by
    unfold prepOne
    rw [h1]
    norm_num [normalizePositions, pyMin, pyMax]
  have h3 : ([([(1:ℚ), 2, 3, 4], [5, 2, 3, 9])]).mapM prepOne
      = some [([0, 1], [2, 3])] := by
    simp [List.mapM.loop, h2]
  have h5 : lattice 2 = [0, 1/2] := by
    norm_num [lattice, List.range_succ]
  have h6 : linear_interpolate [(0:ℚ), 1] [2, 3] 0 = some 2 := by
    norm_num [linear_interpolate, scanIdx, pyGet]
  have h7 : linear_interpolate [(0:ℚ), 1] [2, 3] (1/2) = some (5/2) := by
    norm_num [linear_interpolate, scanIdx, pyGet]
  have h8 : pyMedianCols [[(2:ℚ), 5/2]] 2 = [2, 5/2] := by
    norm_num [pyMedianCols, medianQ, sortQ, insertSorted, List.range_succ]
  unfold process_images
  rw [h3]
  simp only [Option.bind_eq_bind, Option.some_bind]
  norm_num [pyMaxNat, List.mapM.loop, h5, h6, h7, h8]

theorem getD_map_f {f : ℚ → ℚ} {l : List ℚ} {j : Nat} (h : j < l.length) :
    (l.map f).getD j 0 = f (l.getD j 0) := by
  rw [List.getD_eq_getElem _ _ (by simpa using h), List.getD_eq_getElem _ _ h,
    List.getElem_map]

/-- C9: for a replicate whose trimmed positions are strictly ascending with
at least two samples (hence normalized positions spanning exactly [0, 1]),
resampling succeeds at every lattice point `n/num_points` with
`n < num_points` — the interpolator's out-of-range failure branch is
unreachable in the aggregation step — and lattice point 0 returns the
replicate's first intensity via the tie-break. -/
theorem resample_lattice_total (p v nc : List ℚ)
    (hasc : List.Chain' (· < ·) p) (hlen2 : 2 ≤ p.length)
    (hv : v.length = p.length)
    (hnc : normalizePositions p = some nc) :
    (∀ np n : Nat, n < np →
      (linear_interpolate nc v ((n : ℚ) / (np : ℚ))).isSome) ∧
    linear_interpolate nc v 0 = some (v.getD 0 0) := by
  have hne : p ≠ [] := by
    intro hp
    rw [hp] at hlen2
    simp at hlen2
  obtain ⟨a, as, rfl⟩ := List.exists_cons_of_ne_nil hne
  obtain ⟨mn, hmn⟩ := Option.isSome_iff_exists.mp (pyMin_cons_isSome a as)
  obtain ⟨mx, hmx⟩ := Option.isSome_iff_exists.mp (pyMax_cons_isSome a as)
  set p : List ℚ := a :: as with hp
  have hncmap : nc = p.map fun r => (r - mn) / (mx - mn) := by
    unfold normalizePositions at hnc
    rw [hmn, hmx] at hnc
    simp only [Option.bind_eq_bind, Option.some_bind, Option.some.injEq] at hnc
    exact hnc.symm
  obtain ⟨hmn_mem, hmn_le⟩ := pyMin_eq_some_iff.mp hmn
  obtain ⟨hmx_mem, hmx_ge⟩ := pyMax_eq_some_iff.mp hmx
  have hmn_head : mn = p.getD 0 0 :=
    le_antisymm (hmn_le _ (getD_mem (by omega))) (ascend_getD_head_le hasc hmn_mem)
  have hmx_last : mx = p.getD (p.length - 1) 0 :=
    le_antisymm (ascend_le_getD_last hasc hmx_mem)
      (hmx_ge _ (getD_mem (by omega)))
  have hmnmx : mn < mx := by
    rw [hmn_head, hmx_last]
    exact ascend_getD_lt hasc (by omega) (by omega)
  have hd : (0 : ℚ) < mx - mn := by linarith
  have hnclen : nc.length = p.length := by rw [hncmap, List.length_map]
  have hncasc : List.Chain' (· < ·) nc := by
    rw [hncmap]
    rw [List.chain'_map]
    apply List.Chain'.imp _ hasc
    intro x y hxy
    rw [div_lt_div_iff_of_pos_right hd]
    linarith
  have hnc0 : nc.getD 0 0 = 0 := by
    rw [hncmap, getD_map_f (by omega), ← hmn_head, sub_self, zero_div]
  have hnclast : nc.getD (nc.length - 1) 0 = 1 := by
    rw [hncmap, List.length_map, getD_map_f (by omega), ← hmx_last,
      div_self (ne_of_gt hd)]
  constructor
  · intro np n hn
    have hnp : 0 < np := by omega
    have hnpq : (0 : ℚ) < (np : ℚ) := by exact_mod_cast hnp
    have ht0 : (0 : ℚ) ≤ (n : ℚ) / (np : ℚ) :=
      div_nonneg (by exact_mod_cast Nat.zero_le n) (le_of_lt hnpq)
    have ht1 : (n : ℚ) / (np : ℚ) < 1 := by
      rw [div_lt_one hnpq]
      exact_mod_cast hn
    have hmem : nc.getD (nc.length - 1) 0 ∈ nc := getD_mem (by omega)
    have hsome := scanIdx_isSome_of_exists
      ⟨_, hmem, by rw [hnclast]; exact ht1⟩
    obtain ⟨i, hscan⟩ := Option.isSome_iff_exists.mp hsome
    obtain ⟨h1, h2, _⟩ := scanIdx_some_spec hscan
    have hi0 : 0 < i := by
      rcases Nat.eq_zero_or_pos i with rfl | h
      · rw [hnc0] at h2
        exact absurd h2 (not_lt.mpr ht0)
      · exact h
    rw [linear_interpolate_eq_of_scan hscan hi0 (by omega)]
    rfl
  · have h01 : nc.getD 0 0 < nc.getD 1 0 := ascend_getD_lt hncasc Nat.zero_lt_one (by omega)
    have h01z : (0 : ℚ) < nc.getD 1 0 := by
      rw [hnc0] at h01
      exact h01
    have hscan : scanIdx 0 nc = some 1 := by
      apply scanIdx_eq_some_of (by omega) h01z
      intro j hj
      have hj0 : j = 0 := by omega
      subst hj0
      rw [hnc0]
    rw [linear_interpolate_eq_of_scan hscan Nat.one_pos (by omega)]
    have e : (1 : Nat) - 1 = 0 := rfl
    rw [e, hnc0]
    have hne1 : nc.getD 1 0 ≠ 0 := ne_of_gt h01z
    simp only [sub_zero]
    rw [mul_zero, add_zero, mul_div_assoc, div_self hne1, mul_one]

/-- C9 witness: the trimmed profile `[2,3,4]` with values `[7,8,9]`,
normalizing to `[0, 1/2, 1]`. -/
theorem resample_lattice_total_witness :
    (∀ np n : Nat, n < np →
      (linear_interpolate [(0:ℚ), 1/2, 1] [7, 8, 9] ((n : ℚ) / (np : ℚ))).isSome) ∧
    linear_interpolate [(0:ℚ), 1/2, 1] [7, 8, 9] 0 = some (([(7:ℚ), 8, 9]).getD 0 0) :=
  resample_lattice_total [2, 3, 4] [7, 8, 9] [0, 1/2, 1]
    (by norm_num [List.chain'_cons]) (by norm_num) rfl
    (by norm_num [normalizePositions, pyMin, pyMax])

/-! ### Lemmas for the trimming analysis -/

theorem pyFloat_eq_some {l : List ℚ} {a : ℚ} (h : pyFloat l = some a) :
    l = [a] := by
  match l with
  | [] => simp [pyFloat] at h
  | [b] =>
    simp only [pyFloat, Option.some.injEq] at h
    rw [h]
  | b :: c :: bs => simp [pyFloat] at h

theorem map_fst_eq_singleton {l : List (ℚ × ℚ)} {b : ℚ}
    (h : l.map Prod.fst = [b]) : ∃ e, l = [e] ∧ e.1 = b := by
  match l with
  | [] => simp at h
  | [e] =>
    simp only [List.map_cons, List.map_nil, List.cons.injEq, and_true] at h
    exact ⟨e, rfl, h⟩
  | e :: f :: es => simp at h

theorem map_congr_const {α β : Type} {l : List α} {f : α → β} {c : β}
    (h : ∀ e ∈ l, f e = c) : l.map f = List.replicate l.length c := by
  induction l with
  | nil => rfl
  | cons a as ih =>
    simp only [List.map_cons, List.length_cons, List.replicate_succ]
    rw [h a (List.mem_cons_self a as), ih (fun e he => h e (List.mem_cons_of_mem a he))]

theorem map_congr_ident {α : Type} {l : List α} {f : α → α}
    (h : ∀ e ∈ l, f e = e) : l.map f = l := by
  induction l with
  | nil => rfl
  | cons a as ih =>
    simp only [List.map_cons]
    rw [h a (List.mem_cons_self a as), ih (fun e he => h e (List.mem_cons_of_mem a he))]

theorem mem_dropWhile_lb {l : List (ℚ × ℚ)}
    (hpw : l.Pairwise (fun a b => a.1 < b.1)) {c : ℚ} {e : ℚ × ℚ}
    (he : e ∈ l.dropWhile fun pv => decide (pv.1 < c)) : c ≤ e.1 := by
  induction l with
  | nil => simp at he
  | cons a as ih =>
    by_cases ha : a.1 < c
    · rw [List.dropWhile_cons_of_pos (by simpa using ha)] at he
      exact ih (List.pairwise_cons.mp hpw).2 he
    · rw [List.dropWhile_cons_of_neg (by simpa using ha)] at he
      rcases List.mem_cons.mp he with rfl | hmem
      · exact not_lt.mp ha
      · exact le_of_lt (lt_of_le_of_lt (not_lt.mp ha)
          ((List.pairwise_cons.mp hpw).1 e hmem))

theorem mem_dropWhile_ub {l : List (ℚ × ℚ)}
    (hpw : l.Pairwise (fun a b => a.1 < b.1)) {c : ℚ} {e : ℚ × ℚ}
    (he : e ∈ l.dropWhile fun pv => decide (pv.1 ≤ c)) : c < e.1 := by
  induction l with
  | nil => simp at he
  | cons a as ih =>
    by_cases ha : a.1 ≤ c
    · rw [List.dropWhile_cons_of_pos (by simpa using ha)] at he
      exact ih (List.pairwise_cons.mp hpw).2 he
    · rw [List.dropWhile_cons_of_neg (by simpa using ha)] at he
      rcases List.mem_cons.mp he with rfl | hmem
      · exact not_le.mp ha
      · exact lt_trans (not_le.mp ha) ((List.pairwise_cons.mp hpw).1 e hmem)

theorem eq_head_of_min {l : List (ℚ × ℚ)}
    (hpw : l.Pairwise (fun a b => a.1 < b.1)) {e : ℚ × ℚ} (he : e ∈ l)
    (hmin : ∀ x ∈ l, e.1 ≤ x.1) : ∃ t, l = e :: t := by
  match l with
  | [] => simp at he
  | a :: as =>
    rcases List.mem_cons.mp he with rfl | hmem
    · exact ⟨as, rfl⟩
    · have h1 : a.1 < e.1 := (List.pairwise_cons.mp hpw).1 e hmem
      have h2 : e.1 ≤ a.1 := hmin a (List.mem_cons_self a as)
      exact absurd h1 (not_lt.mpr h2)

theorem eq_getLast_of_max {l : List (ℚ × ℚ)}
    (hpw : l.Pairwise (fun a b => a.1 < b.1)) {e : ℚ × ℚ} (he : e ∈ l)
    (hmax : ∀ x ∈ l, x.1 ≤ e.1) : l.getLast? = some e := by
  induction l with
  | nil => simp at he
  | cons a as ih =>
    cases as with
    | nil =>
      rcases List.mem_cons.mp he with rfl | hmem
      · rfl
      · simp at hmem
    | cons b bs =>
      rw [List.getLast?_cons_cons]
      have hmem : e ∈ b :: bs := by
        rcases List.mem_cons.mp he with rfl | hmem
        · have h1 : e.1 < b.1 :=
            (List.pairwise_cons.mp hpw).1 b (List.mem_cons_self b bs)
          have h2 : b.1 ≤ e.1 := hmax b (List.mem_cons_of_mem e (List.mem_cons_self b bs))
          exact absurd h1 (not_lt.mpr h2)
        · exact hmem
      exact ih (List.pairwise_cons.mp hpw).2 hmem
        (fun x hx => hmax x (List.mem_cons_of_mem a hx))

theorem trimFront_replicate_append (n : Nat) (s : List ℚ) :
    trimFront (List.replicate n 0 ++ s) = trimFront s := by
  induction n with
  | zero => rfl
  | succ m ih =>
    rw [List.replicate_succ, List.cons_append]
    rw [trimFront, List.dropWhile_cons_of_pos (by simp)]
    exact ih

theorem trimFront_cons_of_ne {a : ℚ} (ha : a ≠ 0) (s : List ℚ) :
    trimFront (a :: s) = a :: s := by
  rw [trimFront, List.dropWhile_cons_of_neg (by simpa using ha)]

theorem trim_zeros_sandwich {n k : Nat} {m : List ℚ} (hm : m ≠ [])
    (hh : m.headD 0 ≠ 0) (hl : m.getLastD 0 ≠ 0) :
    trim_zeros (List.replicate n 0 ++ (m ++ List.replicate k 0)) = m := by
  obtain ⟨a, t, rfl⟩ := List.exists_cons_of_ne_nil hm
  have ha : a ≠ 0 := by simpa using hh
  unfold trim_zeros
  rw [trimFront_replicate_append, List.cons_append, trimFront_cons_of_ne ha]
  rw [← List.cons_append, List.reverse_append, List.reverse_replicate,
    trimFront_replicate_append]
  obtain ⟨b, rt, hrev⟩ := List.exists_cons_of_ne_nil
    (l := (a :: t).reverse) (by simp)
  have hb : b ≠ 0 := by
    have h1 : (a :: t).reverse.headD 0 = (a :: t).getLastD 0 := by
      rw [List.headD_eq_head?, List.head?_reverse, List.getLastD_eq_getLast?]
    rw [hrev] at h1
    simp only [List.headD_cons] at h1
    rw [← h1] at hl
    exact hl
  rw [hrev, trimFront_cons_of_ne hb, ← hrev, List.reverse_reverse]

theorem getD_zip {position value : List ℚ} {k : Nat}
    (h1 : k < position.length) (h2 : k < value.length) :
    (position.zip value).getD k (0, 0) = (position.getD k 0, value.getD k 0) := by
  have hz : k < (position.zip value).length := by
    rw [List.length_zip]
    omega
  rw [List.getD_eq_getElem _ _ hz, List.getElem_zip,
    List.getD_eq_getElem _ _ h1, List.getD_eq_getElem _ _ h2]

/-- C3 counterexample: for the raw profile `position = [1..6]`,
`value = [5,1,5,0,2,9]` the detected edges are `start = 2` and `stop = 4`,
and the samples with positions in `[2, 4]` carry the values `[1, 5, 0]`;
but trimming returns the value array `[1, 5]` — `trim_zeros` also strips the
genuine zero intensity at the edge sample — so trimming does NOT leave
exactly the samples between the two detected edges (the returned position
and value arrays do not even have the same length). -/
theorem trim_not_exact_cex :
    trimProfile [(1:ℚ), 2, 3, 4, 5, 6] [5, 1, 5, 0, 2, 9] = some ([2, 3, 4], [1, 5]) ∧
    ((([(1:ℚ), 2, 3, 4, 5, 6]).zip [5, 1, 5, 0, 2, 9]).filter fun pv =>
        decide ((2:ℚ) ≤ pv.1 ∧ pv.1 ≤ 4)).map Prod.snd = [1, 5, 0] := by
  constructor
  · norm_num [trimProfile, firstHalfMin, secondHalfMin, detectEdge, pyMin,
      pyFloat, maskSelect, zeroOutside, trim_zeros, trimFront]
  · norm_num

/-- C3 (amended): for a raw profile with strictly ascending, strictly
positive positions, whose two half-minimum intensities are detected at
unique indices and are themselves non-zero, trimming returns exactly the
samples whose position lies in `[start, stop]` (both coordinate arrays):
the leading/trailing zero stripping removes precisely the zeroed-out outer
samples.  (The claim fails without the non-zero conditions, since
`trim_zeros` cannot distinguish a genuine zero at the edge of the kept run
from the zeroed-out samples.) -/
theorem trim_exact_of_nonzero (position value : List ℚ) (m1 m2 startv stopv : ℚ)
    (hasc : List.Chain' (· < ·) position)
    (hlen : position.length = value.length)
    (hpos : ∀ r ∈ position, 0 < r)
    (hm1 : firstHalfMin position value = some m1) (hm1ne : m1 ≠ 0)
    (hm2 : secondHalfMin position value = some m2) (hm2ne : m2 ≠ 0)
    (hs : detectEdge position value m1 = some startv)
    (ht : detectEdge position value m2 = some stopv) :
    trimProfile position value =
      some ((((position.zip value).filter fun pv =>
                decide (startv ≤ pv.1 ∧ pv.1 ≤ stopv)).map Prod.fst),
            (((position.zip value).filter fun pv =>
                decide (startv ≤ pv.1 ∧ pv.1 ≤ stopv)).map Prod.snd)) := by
  set l := position.zip value with hldef
  have hllen : l.length = value.length := by
    rw [hldef, List.length_zip, hlen, min_self]
  have hmapfst : l.map Prod.fst = position :=
    List.map_fst_zip position value (le_of_eq hlen)
  have hpw : l.Pairwise (fun a b => a.1 < b.1) := by
    have hp : List.Pairwise (· < ·) position := List.chain'_iff_pairwise.mp hasc
    rw [← hmapfst] at hp
    exact (List.pairwise_map).mp hp
  -- the two filter singletons from the successful float() conversions
  have hfil1 : l.filter (fun pv => decide (pv.2 = m1)) = [(startv, m1)] := by
    have hs' := hs
    rw [detectEdge] at hs'
    obtain ⟨e, he, hefst⟩ := map_fst_eq_singleton (pyFloat_eq_some hs')
    have hesnd : e.2 = m1 := by
      have hmem : e ∈ l.filter (fun pv => decide (pv.2 = m1)) := by
        rw [he]
        exact List.mem_cons_self e []
      simpa using (List.mem_filter.mp hmem).2
    have : e = (startv, m1) := Prod.ext hefst hesnd
    rw [← this, he]
  have hfil2 : l.filter (fun pv => decide (pv.2 = m2)) = [(stopv, m2)] := by
    have ht' := ht
    rw [detectEdge] at ht'
    obtain ⟨e, he, hefst⟩ := map_fst_eq_singleton (pyFloat_eq_some ht')
    have hesnd : e.2 = m2 := by
      have hmem : e ∈ l.filter (fun pv => decide (pv.2 = m2)) := by
        rw [he]
        exact List.mem_cons_self e []
      simpa using (List.mem_filter.mp hmem).2
    have : e = (stopv, m2) := Prod.ext hefst hesnd
    rw [← this, he]
  have huniq1 : ∀ e ∈ l, e.2 = m1 → e = (startv, m1) := by
    intro e he h2
    have : e ∈ l.filter (fun pv => decide (pv.2 = m1)) :=
      List.mem_filter.mpr ⟨he, by simpa using h2⟩
    rw [hfil1] at this
    simpa using this
  have huniq2 : ∀ e ∈ l, e.2 = m2 → e = (stopv, m2) := by
    intro e he h2
    have : e ∈ l.filter (fun pv => decide (pv.2 = m2)) :=
      List.mem_filter.mpr ⟨he, by simpa using h2⟩
    rw [hfil2] at this
    simpa using this
  have hmem1 : (startv, m1) ∈ l := by
    apply List.mem_of_mem_filter (p := fun pv => decide (pv.2 = m1))
    rw [hfil1]
    exact List.mem_cons_self _ []
  have hmem2 : (stopv, m2) ∈ l := by
    apply List.mem_of_mem_filter (p := fun pv => decide (pv.2 = m2))
    rw [hfil2]
    exact List.mem_cons_self _ []
  -- index facts: the first-half minimum sits strictly before the midpoint,
  -- the second-half minimum at or after it
  obtain ⟨k1, hk1lt, hk1⟩ := List.mem_iff_getElem.mp (pyMin_eq_some_iff.mp hm1).1
  obtain ⟨j2, hj2lt, hj2⟩ := List.mem_iff_getElem.mp (pyMin_eq_some_iff.mp hm2).1
  have hk1half : k1 < position.length / 2 := by
    have := hk1lt
    rw [List.length_take] at this
    omega
  have hk1len : k1 < value.length := by
    have := hk1lt
    rw [List.length_take] at this
    omega
  have hj2len : position.length / 2 + j2 < value.length := by
    have := hj2lt
    rw [List.length_drop] at this
    omega
  have hval1 : value.getD k1 0 = m1 := by
    rw [List.getD_eq_getElem _ _ hk1len]
    exact (List.getElem_take value).symm.trans hk1
  have hval2 : value.getD (position.length / 2 + j2) 0 = m2 := by
    rw [List.getD_eq_getElem _ _ hj2len]
    exact (List.getElem_drop value).symm.trans hj2
  have hk1l : k1 < l.length := by omega
  have hk2l : position.length / 2 + j2 < l.length := by omega
  have hel1 : l.getD k1 (0, 0) = (startv, m1) := by
    apply huniq1
    · rw [List.getD_eq_getElem _ _ hk1l]
      exact List.getElem_mem hk1l
    · rw [hldef, getD_zip (by omega) (by omega)]
      exact hval1
  have hel2 : l.getD (position.length / 2 + j2) (0, 0) = (stopv, m2) := by
    apply huniq2
    · rw [List.getD_eq_getElem _ _ hk2l]
      exact List.getElem_mem hk2l
    · rw [hldef, getD_zip (by omega) (by omega)]
      exact hval2
  have hpos1 : position.getD k1 0 = startv := by
    have h := congrArg Prod.fst hel1
    rw [hldef, getD_zip (by omega) (by omega)] at h
    exact h
  have hpos2 : position.getD (position.length / 2 + j2) 0 = stopv := by
    have h := congrArg Prod.fst hel2
    rw [hldef, getD_zip (by omega) (by omega)] at h
    exact h
  have hss : startv < stopv := by
    have hlt := ascend_getD_lt hasc (show k1 < position.length / 2 + j2 by omega)
      (show position.length / 2 + j2 < position.length by omega)
    rw [hpos1, hpos2] at hlt
    exact hlt
  -- decompose the zipped profile into before-start / in-range / after-stop
  set A := l.takeWhile (fun pv => decide (pv.1 < startv)) with hA
  set M := l.dropWhile (fun pv => decide (pv.1 < startv)) with hM
  set K := M.takeWhile (fun pv => decide (pv.1 ≤ stopv)) with hK
  set B := M.dropWhile (fun pv => decide (pv.1 ≤ stopv)) with hB
  have hAM : A ++ M = l := List.takeWhile_append_dropWhile _ _
  have hKB : K ++ B = M := List.takeWhile_append_dropWhile _ _
  have hlsplit : l = A ++ (K ++ B) := by
    rw [hKB, hAM]
  have hAlt : ∀ e ∈ A, e.1 < startv := by
    intro e he
    simpa using List.mem_takeWhile_imp he
  have hMge : ∀ e ∈ M, startv ≤ e.1 := by
    intro e he
    exact mem_dropWhile_lb hpw he
  have hMpw : M.Pairwise (fun a b => a.1 < b.1) :=
    List.Pairwise.sublist (List.dropWhile_sublist _) hpw
  have hKpw : K.Pairwise (fun a b => a.1 < b.1) :=
    List.Pairwise.sublist (List.takeWhile_sublist _) hMpw
  have hKub : ∀ e ∈ K, e.1 ≤ stopv := by
    intro e he
    simpa using List.mem_takeWhile_imp he
  have hKge : ∀ e ∈ K, startv ≤ e.1 := by
    intro e he
    exact hMge e ((List.takeWhile_sublist _).subset he)
  have hBgt : ∀ e ∈ B, stopv < e.1 := by
    intro e he
    exact mem_dropWhile_ub hMpw he
  have he1M : (startv, m1) ∈ M := by
    have h := hmem1
    rw [← hAM] at h
    rcases List.mem_append.mp h with hin | hin
    · exact absurd (hAlt _ hin) (lt_irrefl startv)
    · exact hin
  have he1K : (startv, m1) ∈ K := by
    have h := he1M
    rw [← hKB] at h
    rcases List.mem_append.mp h with hin | hin
    · exact hin
    · exact absurd (hBgt _ hin) (not_lt.mpr (le_of_lt hss))
  have he2M : (stopv, m2) ∈ M := by
    have h := hmem2
    rw [← hAM] at h
    rcases List.mem_append.mp h with hin | hin
    · exact absurd (hAlt _ hin) (not_lt.mpr (le_of_lt hss))
    · exact hin
  have he2K : (stopv, m2) ∈ K := by
    have h := he2M
    rw [← hKB] at h
    rcases List.mem_append.mp h with hin | hin
    · exact hin
    · exact absurd (hBgt _ hin) (lt_irrefl stopv)
  obtain ⟨kt, hKcons⟩ := eq_head_of_min hKpw he1K (fun x hx => hKge x hx)
  have hKlast : K.getLast? = some (stopv, m2) :=
    eq_getLast_of_max hKpw he2K (fun x hx => hKub x hx)
  -- the zeroing map sends the outer segments to zero pairs, fixes the middle
  have hmapz : l.map (zeroOutside startv stopv) =
      List.replicate A.length ((0:ℚ), (0:ℚ))
        ++ (K ++ List.replicate B.length ((0:ℚ), (0:ℚ))) := by
    conv_lhs => rw [hlsplit]
    rw [List.map_append, List.map_append]
    rw [map_congr_const (fun e he => by
      unfold zeroOutside
      exact if_pos (Or.inl (hAlt e he)))]
    rw [map_congr_ident (fun e he => by
      unfold zeroOutside
      refine if_neg ?_
      simp only [not_or, not_lt]
      exact ⟨hKge e he, hKub e he⟩)]
    rw [map_congr_const (fun e he => by
      unfold zeroOutside
      exact if_pos (Or.inr (hBgt e he)))]
  -- head and last coordinates of the kept run are the non-zero edges
  have hKne : K ≠ [] := by
    rw [hKcons]
    simp
  have hsv : 0 < startv := by
    apply hpos startv
    rw [← hmapfst]
    exact List.mem_map_of_mem Prod.fst hmem1
  have htv : 0 < stopv := by
    apply hpos stopv
    rw [← hmapfst]
    exact List.mem_map_of_mem Prod.fst hmem2
  have hsndhead : (K.map Prod.snd).headD 0 = m1 := by
    rw [hKcons, List.map_cons, List.headD_cons]
  have hsndlast : (K.map Prod.snd).getLastD 0 = m2 := by
    rw [List.getLastD_eq_getLast?, List.getLast?_map, hKlast]
    rfl
  have hfsthead : (K.map Prod.fst).headD 0 = startv := by
    rw [hKcons, List.map_cons, List.headD_cons]
  have hfstlast : (K.map Prod.fst).getLastD 0 = stopv := by
    rw [List.getLastD_eq_getLast?, List.getLast?_map, hKlast]
    rfl
  have htrimsnd : trim_zeros ((l.map (zeroOutside startv stopv)).map Prod.snd)
      = K.map Prod.snd := by
    rw [hmapz, List.map_append, List.map_append, List.map_replicate, List.map_replicate]
    exact trim_zeros_sandwich (by rw [hKcons]; simp)
      (by rw [hsndhead]; exact hm1ne) (by rw [hsndlast]; exact hm2ne)
  have htrimfst : trim_zeros ((l.map (zeroOutside startv stopv)).map Prod.fst)
      = K.map Prod.fst := by
    rw [hmapz, List.map_append, List.map_append, List.map_replicate, List.map_replicate]
    exact trim_zeros_sandwich (by rw [hKcons]; simp)
      (by rw [hfsthead]; exact ne_of_gt hsv) (by rw [hfstlast]; exact ne_of_gt htv)
  -- the kept run is exactly the in-range filter
  have hfilK : l.filter (fun pv => decide (startv ≤ pv.1 ∧ pv.1 ≤ stopv)) = K := by
    conv_lhs => rw [hlsplit]
    rw [List.filter_append, List.filter_append]
    rw [List.filter_eq_nil.mpr (fun e he => by
      simp only [decide_eq_true_eq, not_and, not_le]
      intro h1
      exact absurd (hAlt e he) (not_lt.mpr h1))]
    rw [List.filter_eq_self.mpr (fun e he => by
      simp only [decide_eq_true_eq]
      exact ⟨hKge e he, hKub e he⟩)]
    rw [List.filter_eq_nil.mpr (fun e he => by
      simp only [decide_eq_true_eq, not_and, not_le]
      intro h1
      exact hBgt e he)]
    simp
  -- assemble the whole trimming pipeline
  unfold trimProfile
  rw [hm1]
  simp only [Option.bind_eq_bind, Option.some_bind]
  rw [hs]
  simp only [Option.bind_eq_bind, Option.some_bind]
  rw [hm2]
  simp only [Option.bind_eq_bind, Option.some_bind]
  rw [ht]
  simp only [Option.bind_eq_bind, Option.some_bind]
  rw [← hldef, htrimfst, htrimsnd, hfilK]

/-- C3 witness: the profile `position = [1..6]`, `value = [9,2,8,7,3,9]`
with edges `start = 2`, `stop = 5`. -/
theorem trim_exact_of_nonzero_witness :
    trimProfile [(1:ℚ), 2, 3, 4, 5, 6] [9, 2, 8, 7, 3, 9] =
      some (((([(1:ℚ), 2, 3, 4, 5, 6]).zip [9, 2, 8, 7, 3, 9]).filter fun pv =>
               decide ((2:ℚ) ≤ pv.1 ∧ pv.1 ≤ 5)).map Prod.fst,
            ((([(1:ℚ), 2, 3, 4, 5, 6]).zip [9, 2, 8, 7, 3, 9]).filter fun pv =>
               decide ((2:ℚ) ≤ pv.1 ∧ pv.1 ≤ 5)).map Prod.snd) :=
  trim_exact_of_nonzero [1, 2, 3, 4, 5, 6] [9, 2, 8, 7, 3, 9] 2 3 2 5
    (by norm_num [List.chain'_cons]) rfl
    (by intro r hr; fin_cases hr <;> norm_num)
    (by norm_num [firstHalfMin, pyMin]) (by norm_num)
    (by norm_num [secondHalfMin, pyMin]) (by norm_num)
    (by norm_num [detectEdge, maskSelect, pyFloat])
    (by norm_num [detectEdge, maskSelect, pyFloat])
